import Mathlib

/-!
Shallow embedding of the electronic-structure post-processing engine of
`src/sisl/physics/electron.py` (functions `DOS`, `PDOS`, `spin_moment`,
`_velocity_ortho` and the argument-processing prefix of `wavefunction`).

Numbers: eigenvalues, energies and distribution values are rationals;
eigenvector coefficients are complex rationals (`CQ`).  numpy arrays are
lists (1-D) and lists of lists (2-D, row major).  numpy exceptions
(IndexError, ValueError, TypeError, SislError, NotImplementedError) are
`Except String` errors.  The inline "fake overlap" classes that the source
builds when `S is None` are the `Ov.ident` variant of the `Ov` type; an
explicit overlap matrix is `Ov.mat`.
-/

/-- Complex numbers with rational parts (the dtype of eigenvector data). -/
structure CQ where
  re : ℚ
  im : ℚ
deriving DecidableEq, Repr

/-- Decidable equality of `Except` results (for evaluating the embedding
on concrete inputs). -/
instance {ε α : Type} [DecidableEq ε] [DecidableEq α] : DecidableEq (Except ε α) := fun a b =>
  match a, b with
  | .error e1, .error e2 =>
    if h : e1 = e2 then isTrue (by rw [h]) else isFalse (by intro hc; cases hc; exact h rfl)
  | .error _, .ok _ => isFalse (by intro hc; cases hc)
  | .ok _, .error _ => isFalse (by intro hc; cases hc)
  | .ok a1, .ok a2 =>
    if h : a1 = a2 then isTrue (by rw [h]) else isFalse (by intro hc; cases hc; exact h rfl)

/-- Embed a real number as a complex one. -/
def cq (a : ℚ) : CQ := ⟨a, 0⟩

/-- Complex zero. -/
def CQ.zero : CQ := ⟨0, 0⟩

/-- Complex addition. -/
def CQ.add (a b : CQ) : CQ := ⟨a.re + b.re, a.im + b.im⟩

/-- Complex multiplication. -/
def CQ.mul (a b : CQ) : CQ := ⟨a.re * b.re - a.im * b.im, a.re * b.im + a.im * b.re⟩

/-- Complex conjugation (`numpy.conj`). -/
def CQ.conj (a : CQ) : CQ := ⟨a.re, -a.im⟩

/-- Sum of a list of complex numbers (`numpy.sum` on a complex array). -/
def csum (l : List CQ) : CQ := l.foldr CQ.add CQ.zero

/-- Pointwise product followed by a sum: the `(a * b).sum()` pattern of the
source, i.e. an (unconjugated) dot product. -/
def dotu (a b : List CQ) : CQ := csum (List.zipWith CQ.mul a b)

/-- Real part of the conjugated dot product: the
`(conj(a) * b).sum().real` pattern of the source. -/
def dotRe (a b : List CQ) : ℚ :=
  (List.zipWith (fun c u => (CQ.mul (CQ.conj c) u).re) a b).sum

/-- Number of columns of a 2-D array (`shape[1]`); also the width of a
state matrix. -/
def ncols (m : List (List CQ)) : ℕ :=
  match m with
  | [] => 0
  | r :: _ => r.length

/-- Every other element starting at index 0: the `[::2]` slice. -/
def everyOther {α : Type} : List α → List α
  | [] => []
  | [a] => [a]
  | a :: _ :: rest => a :: everyOther rest

/-- Even-indexed elements (`[0::2]`): the spin-up components of an
interleaved spinor vector. -/
def evens {α : Type} (l : List α) : List α := everyOther l

/-- Odd-indexed elements (`[1::2]`): the spin-down components of an
interleaved spinor vector. -/
def odds {α : Type} (l : List α) : List α := everyOther (l.drop 1)

/-- Every third element starting at index 0: the `[0::3]` slice used on the
stacked three-direction derivative matrices. -/
def everyThird {α : Type} : List α → List α
  | [] => []
  | [a] => [a]
  | [a, _] => [a]
  | a :: _ :: _ :: rest => a :: everyThird rest

/-- `reshape(-1, 2)`: regroup an interleaved vector into (up, down) pairs.
numpy raises a ValueError when the length is odd. -/
def toPairs {α : Type} : List α → Except String (List (α × α))
  | [] => .ok []
  | [_] => .error "ValueError: cannot reshape array into pairs"
  | a :: b :: rest => (toPairs rest).map (fun P => (a, b) :: P)

/-- `ravel()` of an `(n, 2)` array: flatten the pairs back to an
interleaved vector. -/
def ravel {α : Type} (P : List (α × α)) : List α :=
  P.foldr (fun p acc => p.1 :: p.2 :: acc) []

/-- The overlap operator argument `S`: either the inline identity class the
source creates when `S is None` (it only stores a `shape` and a `dot`
returning its input unchanged) or an explicit matrix. -/
inductive Ov where
  | ident (n : ℕ)
  | mat (m : List (List CQ))

/-- `S.shape[1]`. -/
def Ov.shape1 : Ov → ℕ
  | .ident n => n
  | .mat m => ncols m

/-- The `S[::2, ::2]` slice of an explicit matrix. -/
def sliceMat (m : List (List CQ)) : List (List CQ) :=
  (everyOther m).map everyOther

/-- `S[::2, ::2]`.  On the inline identity class this is Python subscripting
of a class object and raises a TypeError. -/
def Ov.slice2 : Ov → Except String Ov
  | .ident _ => .error "TypeError: the identity overlap class object is not subscriptable"
  | .mat m => .ok (.mat (sliceMat m))

/-- Unchecked matrix-vector product (used after the dimension check). -/
def matVecU (m : List (List CQ)) (v : List CQ) : List CQ :=
  m.map (fun r => dotu r v)

/-- `S.dot(v)` for a 1-D vector `v`: the identity class returns `v`
unchanged; an explicit matrix multiplies, and numpy raises a ValueError
when the inner dimensions disagree. -/
def Ov.dotV : Ov → List CQ → Except String (List CQ)
  | .ident _, v => .ok v
  | .mat m, v =>
    if ncols m = v.length then .ok (matVecU m v)
    else .error "ValueError: shapes not aligned"

/-- `S.dot(v.reshape(-1, 2))`: apply the overlap to the spin-up and
spin-down columns of an `(n, 2)` spinor array. -/
def Ov.dotPairs : Ov → List (CQ × CQ) → Except String (List (CQ × CQ))
  | .ident _, P => .ok P
  | .mat m, P =>
    if ncols m = P.length then
      .ok (m.map (fun r => (dotu r (P.map Prod.fst), dotu r (P.map Prod.snd))))
    else .error "ValueError: shapes not aligned"

/-- The spin configurations of `sisl.physics.spin.Spin`, carrying only the
`kind` ordering used by `electron.py`. -/
inductive SpinKind where
  | unpolarized
  | polarized
  | noncolinear
  | spinorbit
deriving DecidableEq, Repr

/-- `Spin.kind`: unpolarized 0, polarized 1, non-collinear 2, spin-orbit 3. -/
def SpinKind.kind : SpinKind → ℕ
  | .unpolarized => 0
  | .polarized => 1
  | .noncolinear => 2
  | .spinorbit => 3

/-- `distribution(E - e)` for a whole energy grid `E`. -/
def dmap (E : List ℚ) (dist : ℚ → ℚ) (e : ℚ) : List ℚ :=
  E.map (fun x => dist (x - e))

/-- Elementwise sum of two equal-length real vectors (`a += b`). -/
def vadd (a b : List ℚ) : List ℚ := List.zipWith (fun x y => x + y) a b

/-- Outer product `p.reshape(-1, 1) * d.reshape(1, -1)`. -/
def outer (p d : List ℚ) : List (List ℚ) :=
  p.map (fun a => d.map (fun x => a * x))

/-- Elementwise sum of two equal-shape real matrices (`A += B`). -/
def addMat (A B : List (List ℚ)) : List (List ℚ) := List.zipWith vadd A B

/-- Sum of a matrix over its row axis (`A.sum(0)`), for rows of length `n`. -/
def sumRows (n : ℕ) (A : List (List ℚ)) : List ℚ :=
  A.foldr vadd (List.replicate n 0)

/--
`DOS(E, eig, distribution)` of `electron.py`: starts from
`distribution(E - eig[0])` (an IndexError when `eig` is empty) and adds
`distribution(E - eig[i])` for the remaining eigenvalues.
-/
def DOS (E eig : List ℚ) (dist : ℚ → ℚ) : Except String (List ℚ) :=
  match eig with
  | [] => .error "IndexError: index 0 is out of bounds"
  | e0 :: rest =>
    .ok (rest.foldl (fun acc e => vadd acc (dmap E dist e)) (dmap E dist e0))

/-- The closed-form value of `DOS`: for every query energy the sum over
eigenvalues of the distribution of the energy difference. -/
def dosFormula (E eig : List ℚ) (dist : ℚ → ℚ) : List ℚ :=
  E.map (fun x => (eig.map (fun e => dist (x - e))).sum)

/-- `S = None` in `PDOS` builds the inline identity class whose `shape` is
`(eig_v.shape[1], eig_v.shape[1])`, the full eigenvector width. -/
def resolveS (S? : Option (List (List CQ))) (w : ℕ) : Ov :=
  match S? with
  | none => .ident w
  | some m => .mat m

/-- One collinear PDOS state contribution before broadening:
`(conj(eig_v[i]) * S.dot(eig_v[i])).real`, the per-orbital weights. -/
def pvec (S : Ov) (row : List CQ) : Except String (List ℚ) :=
  match Ov.dotV S row with
  | .error e => .error e
  | .ok sv =>
    if sv.length = row.length then
      .ok (List.zipWith (fun c u => (CQ.mul (CQ.conj c) u).re) row sv)
    else .error "ValueError: operands could not be broadcast together"

/-- The collinear accumulation loop of `PDOS`: add
`weights.reshape(-1, 1) * distribution(E - eig[i]).reshape(1, -1)` for each
remaining state. -/
def colLoop (E : List ℚ) (dist : ℚ → ℚ) (S : Ov) (acc : List (List ℚ)) :
    List (ℚ × List CQ) → Except String (List (List ℚ))
  | [] => .ok acc
  | pr :: rest =>
    match pvec S pr.2 with
    | .error e => .error e
    | .ok p => colLoop E dist S (addMat acc (outer p (dmap E dist pr.1))) rest

/-- The collinear branch of `PDOS` (initial state then the loop). -/
def colPDOS (E : List ℚ) (dist : ℚ → ℚ) (S : Ov) (e0 : ℚ) (v0 : List CQ)
    (rest : List (ℚ × List CQ)) : Except String (List (List ℚ)) :=
  match pvec S v0 with
  | .error e => .error e
  | .ok p0 => colLoop E dist S (outer p0 (dmap E dist e0)) rest

/-- Per-state data of the non-collinear branch: the four channel weight
vectors (total, x, y, z) and the broadened distribution values. -/
structure NCCoef where
  tot : List ℚ
  x : List ℚ
  y : List ℚ
  z : List ℚ
  d : List ℚ

/-- One state of the non-collinear `PDOS` branch: reshape the eigenvector
into spinor pairs, apply the (orbital-sized) overlap, and form the diagonal
densities `D` and the cross term `conj(eig_v[i, 1::2]) * 2 * v[:, 0]`. -/
def ncStep (E : List ℚ) (dist : ℚ → ℚ) (S : Ov) (e : ℚ) (row : List CQ) :
    Except String NCCoef :=
  match toPairs row with
  | .error e2 => .error e2
  | .ok rv =>
    match Ov.dotPairs S rv with
    | .error e2 => .error e2
    | .ok v =>
      if v.length * 2 = row.length then
        match toPairs (List.zipWith (fun c u => (CQ.mul (CQ.conj c) u).re) row (ravel v)) with
        | .error e2 => .error e2
        | .ok D =>
          let dxy := List.zipWith (fun c u => CQ.mul (CQ.conj c) (CQ.mul (cq 2) u))
            (odds row) (v.map Prod.fst)
          .ok ⟨(D.map (fun p => p.1 + p.2)) , dxy.map CQ.re, dxy.map CQ.im,
               D.map (fun p => p.1 - p.2), dmap E dist e⟩
      else .error "ValueError: operands could not be broadcast together"

/-- The result array of `PDOS`: an `(eig_v.shape[1], len(E))` matrix on the
collinear path, four `(eig_v.shape[1] // 2, len(E))` channel matrices
(total, x, y, z) on the non-collinear path. -/
inductive PDOSOut where
  | col (P : List (List ℚ))
  | nc (t x y z : List (List ℚ))
deriving DecidableEq

/-- The non-collinear accumulation loop of `PDOS`. -/
def ncLoop (E : List ℚ) (dist : ℚ → ℚ) (S : Ov)
    (Pt Px Py Pz : List (List ℚ)) :
    List (ℚ × List CQ) → Except String PDOSOut
  | [] => .ok (.nc Pt Px Py Pz)
  | pr :: rest =>
    match ncStep E dist S pr.1 pr.2 with
    | .error e => .error e
    | .ok c =>
      ncLoop E dist S (addMat Pt (outer c.tot c.d)) (addMat Px (outer c.x c.d))
        (addMat Py (outer c.y c.d)) (addMat Pz (outer c.z c.d)) rest

/-- The non-collinear branch of `PDOS` (initial state then the loop). -/
def ncPDOS (E : List ℚ) (dist : ℚ → ℚ) (S : Ov) (e0 : ℚ) (v0 : List CQ)
    (rest : List (ℚ × List CQ)) : Except String PDOSOut :=
  match ncStep E dist S e0 v0 with
  | .error e => .error e
  | .ok c =>
    ncLoop E dist S (outer c.tot c.d) (outer c.x c.d) (outer c.y c.d)
      (outer c.z c.d) rest

/-- The `spin is None` inference of `PDOS`: non-collinear is inferred when
`S.shape[1] == eig_v.shape[1] // 2`, and the overlap is then immediately
sliced by `S[::2, ::2]`. -/
def pdosSpinResolve (S0 : Ov) (w : ℕ) (spin? : Option SpinKind) :
    Except String (SpinKind × Ov) :=
  match spin? with
  | none =>
    if S0.shape1 = w / 2 then
      match S0.slice2 with
      | .error e => .error e
      | .ok S1 => .ok (SpinKind.noncolinear, S1)
    else .ok (SpinKind.unpolarized, S0)
  | some sp => .ok (sp, S0)

/-- The branch dispatch of `PDOS` after the spin configuration and overlap
have been resolved. -/
def pdosBody (E eig : List ℚ) (eig_v : List (List CQ)) (w : ℕ)
    (spin : SpinKind) (S1 : Ov) (dist : ℚ → ℚ) : Except String PDOSOut :=
  if 1 < spin.kind then
    match (if S1.shape1 = w then S1.slice2 else .ok S1) with
    | .error e => .error e
    | .ok S2 =>
      match eig, eig_v with
      | e0 :: erest, v0 :: vrest =>
        if erest.length ≤ vrest.length then
          ncPDOS E dist S2 e0 v0 (erest.zip vrest)
        else .error "IndexError: index is out of bounds"
      | _, _ => .error "IndexError: index 0 is out of bounds"
  else
    match eig, eig_v with
    | e0 :: erest, v0 :: vrest =>
      if erest.length ≤ vrest.length then
        match colPDOS E dist S1 e0 v0 (erest.zip vrest) with
        | .error e => .error e
        | .ok P => .ok (.col P)
      else .error "IndexError: index is out of bounds"
    | _, _ => .error "IndexError: index 0 is out of bounds"

/--
`PDOS(E, eig, eig_v, S, distribution, spin)` of `electron.py`:

* `S is None` builds the inline identity class of full eigenvector width;
* `spin is None` infers non-collinear when `S.shape[1] == eig_v.shape[1] // 2`
  and then immediately slices `S = S[::2, ::2]`;
* on the non-collinear path (`spin.kind > Spin.POLARIZED`) a full-width
  overlap is sliced to `S[::2, ::2]`, then each state is processed through
  the Pauli decomposition; otherwise the collinear loop runs.

An eigenvalue list longer than the eigenvector list raises an IndexError,
as does an empty `eig` (`eig[0]`).
-/
def PDOS (E eig : List ℚ) (eig_v : List (List CQ)) (S? : Option (List (List CQ)))
    (dist : ℚ → ℚ) (spin? : Option SpinKind) : Except String PDOSOut :=
  match pdosSpinResolve (resolveS S? (ncols eig_v)) (ncols eig_v) spin? with
  | .error e => .error e
  | .ok (spin, S1) => pdosBody E eig eig_v (ncols eig_v) spin S1 dist

/-- `S = None` in `spin_moment` builds the inline identity class whose
`shape` is half the state width (unlike the one in `PDOS`). -/
def resolveSpinS (S? : Option (List (List CQ))) (w : ℕ) : Ov :=
  match S? with
  | none => .ident (w / 2)
  | some m => .mat m

/-- One state of `spin_moment`: reshape into spinor pairs, apply the
overlap, form the diagonal densities `D` and the cross term
`2 * (conj(state[i, 1::2]) * Sstate[:, 0]).sum()`; returns the
`(x, y, z)` moments of that state. -/
def spinRowCalc (S : Ov) (row : List CQ) : Except String (ℚ × ℚ × ℚ) :=
  match toPairs row with
  | .error e => .error e
  | .ok rv =>
    match Ov.dotPairs S rv with
    | .error e => .error e
    | .ok Sst =>
      if Sst.length * 2 = row.length then
        match toPairs (List.zipWith (fun c u => (CQ.mul (CQ.conj c) u).re) row (ravel Sst)) with
        | .error e => .error e
        | .ok D =>
          let dxy := csum (List.zipWith (fun c u => CQ.mul (CQ.conj c) u)
            (odds row) (Sst.map Prod.fst))
          .ok (2 * dxy.re, 2 * dxy.im, (D.map (fun p => p.1 - p.2)).sum)
      else .error "ValueError: operands could not be broadcast together"

/-- The per-state loop of `spin_moment`. -/
def spinRows (S : Ov) : List (List CQ) → Except String (List (ℚ × ℚ × ℚ))
  | [] => .ok []
  | row :: rest =>
    match spinRowCalc S row with
    | .error e => .error e
    | .ok t =>
      match spinRows S rest with
      | .error e => .error e
      | .ok ts => .ok (t :: ts)

/--
`spin_moment(state, S)` of `electron.py` for a 2-D state matrix:
resolve the overlap (identity of half width when `S is None`), slice a
full-width overlap down by `S[::2, ::2]`, then compute the three spin
moments of every state row.
-/
def spin_moment (state : List (List CQ)) (S? : Option (List (List CQ))) :
    Except String (List (ℚ × ℚ × ℚ)) :=
  match (if (resolveSpinS S? (ncols state)).shape1 = ncols state
      then (resolveSpinS S? (ncols state)).slice2
      else .ok (resolveSpinS S? (ncols state))) with
  | .error e => .error e
  | .ok S1 => spinRows S1 state

/-- `_velocity_const = 1 / 6.582119514e-16 * 1e-12` of `electron.py`
(velocities in Ang/ps), as an exact rational. -/
def velocity_const : ℚ := (10000000000000 : ℚ) / 6582119514

/-- The result of `_velocity_ortho`: an `(n_states, 3)` array when `dHk`
stacks the three directional derivatives, a plain vector when `dHk` is one
square direction block. -/
inductive VOut where
  | three (v : List (ℚ × ℚ × ℚ))
  | one (v : List ℚ)
deriving DecidableEq

/--
`_velocity_ortho(state, dHk)` of `electron.py` with `degenerate=None`:

* `dHk.shape[0] == state.shape[1] * 3`: per state and Cartesian axis `a`,
  `(conj(state[i]) * dHk.dot(state[i].T)[a::3]).sum().real`, scaled by
  `_velocity_const`;
* `dHk.shape[0] == state.shape[1]`: the single-direction value
  `(conj(state.T) * dHk.dot(state.T)).sum(0).real`, same scaling;
* otherwise a SislError (the malformed-derivative-shape failure).
-/
def velocity_ortho (state dHk : List (List CQ)) : Except String VOut :=
  if dHk.length = ncols state * 3 then
    if ncols dHk = ncols state then
      .ok (.three (state.map (fun row =>
        (velocity_const * dotRe row (everyThird (matVecU dHk row)),
         velocity_const * dotRe row (everyThird ((matVecU dHk row).drop 1)),
         velocity_const * dotRe row (everyThird ((matVecU dHk row).drop 2))))))
    else .error "ValueError: shapes not aligned"
  else if dHk.length = ncols state then
    if ncols dHk = ncols state then
      .ok (.one (state.map (fun row => velocity_const * dotRe row (matVecU dHk row))))
    else .error "ValueError: shapes not aligned"
  else
    .error "SislError: velocity requires the dHk matrix to contain 1 or 3 components per orbital"

/-- The textbook expectation value `Re` of `⟨ψ| dH/dk_a |ψ⟩` where the rows
`3ν + a` of the stacked derivative matrix form the direction-`a` operator:
the value the spec ascribes to the orthogonal velocity before scaling. -/
def braket (dHk : List (List CQ)) (a : ℕ) (row : List CQ) : ℚ :=
  ((List.range row.length).map (fun i =>
    (CQ.mul (CQ.conj (row.getD i CQ.zero))
      (dotu (dHk.getD (3 * i + a) []) row)).re)).sum

/-- Apply an overlap operator without dimension checks (used only to state
specification-side formulas). -/
def OvApplyU : Ov → List CQ → List CQ
  | .ident _, v => v
  | .mat m, v => matVecU m v

/-- The full overlap-weighted norm of an interleaved spinor vector under a
spin-block-diagonal overlap: the up-channel part plus the down-channel
part of `Re` of `⟨ψ| S |ψ⟩`. -/
def snormFull (S : Ov) (row : List CQ) : ℚ :=
  dotRe (evens row) (OvApplyU S (evens row)) +
    dotRe (odds row) (OvApplyU S (odds row))

/-- A state row is normalized against the overlap: its collinear PDOS
weight vector exists, sums to 1, and has the expected width. -/
def normalizedRow (S : Ov) (w : ℕ) (row : List CQ) : Bool :=
  match pvec S row with
  | .ok p => decide (p.sum = 1) && decide (p.length = w)
  | .error _ => false

/-- Well-formedness of the `spin_moment` overlap argument: absent, or an
explicit square matrix of orbital size `no`. -/
def spinSOK (S? : Option (List (List CQ))) (no : ℕ) : Bool :=
  match S? with
  | none => true
  | some m => decide (m.length = no) && decide (∀ r ∈ m, r.length = no)

/-- The coefficient argument `v` of `wavefunction`: a 1-D vector or a 2-D
matrix of several states. -/
inductive VCoeff where
  | one (v : List CQ)
  | two (m : List (List CQ))

/-- `v.sum(0)`: sum a 2-D coefficient array over its state (row) axis. -/
def sum0 (m : List (List CQ)) : List CQ :=
  match m with
  | [] => []
  | r :: rest => rest.foldl (fun acc row => List.zipWith CQ.add acc row) r

/-- `v.reshape(-1, 2)[:, spinor]`: select one spinor component. -/
def selSpinor (P : List (CQ × CQ)) (spinor : ℕ) : Except String (List CQ) :=
  if spinor = 0 then .ok (P.map Prod.fst)
  else if spinor = 1 then .ok (P.map Prod.snd)
  else .error "IndexError: spinor index out of range"

/--
The argument-processing prefix of `wavefunction(v, grid, geometry, k,
spinor, spin)` that runs before the k-point gate: resolve a geometry (from
the keyword or from the grid, else a SislError), sum a 2-D `v` over its
state axis, select a spinor component when the spin configuration is (or
is inferred to be) non-collinear, and check that the coefficient count
matches the geometry orbital count `no`.  Geometries are represented by
their orbital count, the only attribute this prefix reads.
-/
def wavefunction_pre (vin : VCoeff) (geom? gridGeom? : Option ℕ) (spinor : ℕ)
    (spin? : Option SpinKind) : Except String (List CQ) :=
  match (match geom? with | some g => some g | none => gridGeom?) with
  | none => .error "SislError: wavefunction did not find a usable Geometry through keywords or the Grid"
  | some no =>
    let v := match vin with | .one l => l | .two m => sum0 m
    let v1 : Except String (List CQ) :=
      match spin? with
      | none =>
        if v.length / 2 = no then
          match toPairs v with
          | .error e => .error e
          | .ok P => selSpinor P spinor
        else .ok v
      | some sp =>
        if 1 < sp.kind then
          match toPairs v with
          | .error e => .error e
          | .ok P => selSpinor P spinor
        else .ok v
    match v1 with
    | .error e => .error e
    | .ok v2 =>
      if v2.length = no then .ok v2
      else .error "ValueError: wavefunction requires wavefunction coefficients corresponding to number of orbitals in the geometry"

/--
`wavefunction` up to (and including) the k-point and dtype gates of
`electron.py`: after the prefix, `k` is rejected with a
NotImplementedError when its Euclidean norm exceeds `0.000001` (the source
compares `sqrt(sum(k**2)) > 0.000001`; here equivalently on squares), then
complex coefficients require a complex grid.  A successful result carries
the coefficient vector that the subsequent in-place grid accumulation loop
would deposit; every failure happens before that loop touches the grid.
`vComplex`/`gridComplex` are the complex-dtype flags that
`numpy.iscomplexobj` reads on `v` and `grid.grid`.
-/
def wavefunction (vin : VCoeff) (vComplex gridComplex : Bool)
    (geom? gridGeom? : Option ℕ) (k : ℚ × ℚ × ℚ) (spinor : ℕ)
    (spin? : Option SpinKind) : Except String (List CQ) :=
  match wavefunction_pre vin geom? gridGeom? spinor spin? with
  | .error e => .error e
  | .ok v2 =>
    let k2 := k.1 * k.1 + k.2.1 * k.2.1 + k.2.2 * k.2.2
    if 1 / 1000000000000 < k2 then
      .error "NotImplementedError: wavefunction for k away from Gamma does not produce correct wavefunctions"
    else if vComplex && !gridComplex then
      .error "SislError: wavefunction input coefficients are complex, while grid only contains real"
    else .ok v2

/-- An overlap operand is a square orbital-sized matrix (or the identity
capability, which imposes no size). -/
def OvSquare (S : Ov) (no : ℕ) : Prop :=
  match S with
  | .ident _ => True
  | .mat m => m.length = no ∧ ncols m = no

/-! ### Basic list lemmas -/

theorem vadd_length (a b : List ℚ) : (vadd a b).length = min a.length b.length := by
  simp [vadd]

theorem dmap_length (E : List ℚ) (dist : ℚ → ℚ) (e : ℚ) :
    (dmap E dist e).length = E.length := by
  simp [dmap]

theorem vadd_map_map (f g : ℚ → ℚ) (E : List ℚ) :
    vadd (E.map f) (E.map g) = E.map (fun x => f x + g x) := by
  induction E with
  | nil => rfl
  | cons x xs ih =>
    show (f x + g x) :: vadd (xs.map f) (xs.map g) = _
    rw [ih]
    rfl

theorem list_vadd_comm (a : List ℚ) : ∀ b : List ℚ, vadd a b = vadd b a := by
  induction a with
  | nil => intro b; cases b <;> rfl
  | cons x xs ih =>
    intro b
    cases b with
    | nil => rfl
    | cons y ys =>
      show (x + y) :: vadd xs ys = (y + x) :: vadd ys xs
      rw [add_comm, ih ys]

theorem list_vadd_assoc (a : List ℚ) :
    ∀ b c : List ℚ, vadd (vadd a b) c = vadd a (vadd b c) := by
  induction a with
  | nil => intro b c; rfl
  | cons x xs ih =>
    intro b c
    cases b with
    | nil => rfl
    | cons y ys =>
      cases c with
      | nil => rfl
      | cons z zs =>
        show (x + y + z) :: vadd (vadd xs ys) zs = (x + (y + z)) :: vadd xs (vadd ys zs)
        rw [add_assoc, ih ys zs]

theorem map_zero_eq_replicate (E : List ℚ) :
    E.map (fun _ => (0 : ℚ)) = List.replicate E.length 0 := by
  induction E with
  | nil => rfl
  | cons x xs ih => simp [List.replicate, ih]

theorem vadd_replicate_zero (a : List ℚ) : vadd a (List.replicate a.length 0) = a := by
  induction a with
  | nil => rfl
  | cons x xs ih =>
    show (x + 0) :: vadd xs (List.replicate xs.length 0) = x :: xs
    rw [add_zero, ih]

/-! ### DOS lemmas -/

theorem dosFormula_length (E eig : List ℚ) (dist : ℚ → ℚ) :
    (dosFormula E eig dist).length = E.length := by
  simp [dosFormula]

theorem dosFormula_nil (E : List ℚ) (dist : ℚ → ℚ) :
    dosFormula E [] dist = E.map (fun _ => 0) := by
  simp [dosFormula]

theorem dosFormula_cons (E : List ℚ) (dist : ℚ → ℚ) (e : ℚ) (eig : List ℚ) :
    dosFormula E (e :: eig) dist = vadd (dmap E dist e) (dosFormula E eig dist) := by
  rw [dosFormula, dosFormula, dmap, vadd_map_map]
  simp

theorem DOS_foldl (E : List ℚ) (dist : ℚ → ℚ) (rest : List ℚ) :
    ∀ acc : List ℚ, acc.length = E.length →
      rest.foldl (fun acc e => vadd acc (dmap E dist e)) acc =
        vadd acc (dosFormula E rest dist) := by
  induction rest with
  | nil =>
    intro acc hacc
    rw [List.foldl_nil, dosFormula_nil, map_zero_eq_replicate, ← hacc]
    exact (vadd_replicate_zero acc).symm
  | cons e rest ih =>
    intro acc hacc
    rw [List.foldl_cons, ih (vadd acc (dmap E dist e))
      (by rw [vadd_length, hacc, dmap_length, min_self]),
      dosFormula_cons, list_vadd_assoc]

theorem DOS_eq (E eig : List ℚ) (dist : ℚ → ℚ) (h : eig ≠ []) :
    DOS E eig dist = .ok (dosFormula E eig dist) := by
  cases eig with
  | nil => exact absurd rfl h
  | cons e0 rest =>
    rw [DOS, DOS_foldl E dist rest (dmap E dist e0) (dmap_length E dist e0),
      ← dosFormula_cons]

theorem dosFormula_perm (E : List ℚ) (dist : ℚ → ℚ) (eig1 eig2 : List ℚ)
    (h : eig1.Perm eig2) :
    dosFormula E eig1 dist = dosFormula E eig2 dist := by
  unfold dosFormula
  refine List.map_congr_left (fun x _ => ?_)
  exact List.Perm.sum_eq (List.Perm.map _ h)

/-- Claim C5: for every non-empty eigenvalue sequence `eig` and energy grid
`E`, `DOS E eig dist` succeeds with the elementwise sum over eigenvalues of
`dist (E - eig i)`, the output has the length of `E`, and the result is
invariant under any permutation of `eig` (the embedding is a pure
function, so no input is mutated). -/
theorem c5_dos_spec (E eig eig2 : List ℚ) (dist : ℚ → ℚ) (h : eig ≠ [])
    (hperm : eig.Perm eig2) :
    DOS E eig dist = .ok (dosFormula E eig dist) ∧
    (dosFormula E eig dist).length = E.length ∧
    DOS E eig dist = DOS E eig2 dist := by
  have h2 : eig2 ≠ [] := by
    intro hnil
    exact h (List.Perm.eq_nil (hnil ▸ hperm))
  refine ⟨DOS_eq E eig dist h, dosFormula_length E eig dist, ?_⟩
  rw [DOS_eq E eig dist h, DOS_eq E eig2 dist h2, dosFormula_perm E dist eig eig2 hperm]

/-- Witness for C5 at a concrete input. -/
theorem c5_dos_spec_witness :
    (([(1 : ℚ), 2] ≠ ([] : List ℚ)) ∧ List.Perm [(1 : ℚ), 2] [2, 1]) ∧
    (DOS [0] [1, 2] (fun _ => 1) = .ok (dosFormula [0] [1, 2] (fun _ => 1)) ∧
      (dosFormula [0] [(1 : ℚ), 2] (fun _ => 1)).length = [(0 : ℚ)].length ∧
      DOS [0] [1, 2] (fun _ => 1) = DOS [0] [2, 1] (fun _ => 1)) :=
  ⟨⟨by decide, by decide⟩,
    c5_dos_spec [0] [1, 2] [2, 1] (fun _ => 1) (by decide) (by decide)⟩

/-! ### PDOS collinear-path lemmas -/

theorem vadd_rep_rep (n : ℕ) :
    vadd (List.replicate n 0) (List.replicate n 0) = List.replicate n 0 := by
  have h := vadd_replicate_zero (List.replicate n (0 : ℚ))
  rwa [List.length_replicate] at h

theorem outer_length (p d : List ℚ) : (outer p d).length = p.length := by
  simp [outer]

theorem outer_row_length (p d : List ℚ) : ∀ r ∈ outer p d, r.length = d.length := by
  intro r hr
  simp only [outer, List.mem_map] at hr
  obtain ⟨a, _, rfl⟩ := hr
  simp

theorem addMat_length (A B : List (List ℚ)) :
    (addMat A B).length = min A.length B.length := by
  simp [addMat]

theorem addMat_row_length (n : ℕ) : ∀ A B : List (List ℚ),
    (∀ r ∈ A, r.length = n) → (∀ r ∈ B, r.length = n) →
    ∀ r ∈ addMat A B, r.length = n
  | [], _, _, _ => by intro r hr; simp [addMat] at hr
  | a :: A, [], _, _ => by intro r hr; simp [addMat] at hr
  | a :: A, b :: B, hA, hB => by
    intro r hr
    rw [show addMat (a :: A) (b :: B) = vadd a b :: addMat A B from rfl] at hr
    rcases List.mem_cons.mp hr with h | h
    · subst h
      rw [vadd_length, hA a (List.mem_cons_self a A), hB b (List.mem_cons_self b B),
        min_self]
    · exact addMat_row_length n A B (fun r2 h2 => hA r2 (List.mem_cons_of_mem a h2))
        (fun r2 h2 => hB r2 (List.mem_cons_of_mem b h2)) r h

theorem sumRows_length (n : ℕ) : ∀ A : List (List ℚ),
    (∀ r ∈ A, r.length = n) → (sumRows n A).length = n
  | [], _ => by simp [sumRows]
  | r :: A, h => by
    show (vadd r (sumRows n A)).length = n
    rw [vadd_length, h r (List.mem_cons_self r A),
      sumRows_length n A (fun r2 hr2 => h r2 (List.mem_cons_of_mem r hr2)), min_self]

theorem sumRows_outer (n : ℕ) (p d : List ℚ) (hd : d.length = n) :
    sumRows n (outer p d) = d.map (fun x => p.sum * x) := by
  induction p with
  | nil =>
    show List.replicate n 0 = d.map (fun x => List.sum [] * x)
    rw [List.sum_nil]
    simp only [zero_mul]
    rw [map_zero_eq_replicate, hd]
  | cons a p ih =>
    show vadd (d.map (fun x => a * x)) (sumRows n (outer p d)) = _
    rw [ih, vadd_map_map]
    refine List.map_congr_left (fun x _ => ?_)
    show a * x + p.sum * x = (a :: p).sum * x
    rw [List.sum_cons]
    ring

theorem vadd_four (a b c d : List ℚ) :
    vadd (vadd a b) (vadd c d) = vadd (vadd a c) (vadd b d) := by
  rw [list_vadd_assoc a b (vadd c d), list_vadd_assoc a c (vadd b d)]
  congr 1
  rw [← list_vadd_assoc b c d, list_vadd_comm b c, list_vadd_assoc c b d]

theorem sumRows_addMat (n : ℕ) : ∀ A B : List (List ℚ), A.length = B.length →
    sumRows n (addMat A B) = vadd (sumRows n A) (sumRows n B)
  | [], [], _ => (vadd_rep_rep n).symm
  | [], b :: B, h => by simp at h
  | a :: A, [], h => by simp at h
  | a :: A, b :: B, h => by
    show vadd (vadd a b) (sumRows n (addMat A B)) =
      vadd (vadd a (sumRows n A)) (vadd b (sumRows n B))
    rw [sumRows_addMat n A B (by simpa using h)]
    exact vadd_four a b (sumRows n A) (sumRows n B)

theorem normalizedRow_spec (S : Ov) (w : ℕ) (row : List CQ)
    (h : normalizedRow S w row = true) :
    ∃ p, pvec S row = .ok p ∧ p.sum = 1 ∧ p.length = w := by
  unfold normalizedRow at h
  cases hp : pvec S row with
  | error e => rw [hp] at h; exact absurd h (by simp)
  | ok p =>
    rw [hp] at h
    simp only [Bool.and_eq_true, decide_eq_true_eq] at h
    exact ⟨p, rfl, h.1, h.2⟩

theorem vadd_replicate_zero' (a : List ℚ) (n : ℕ) (h : a.length = n) :
    vadd a (List.replicate n 0) = a := by
  subst h
  exact vadd_replicate_zero a

theorem colLoop_cons_ok (E : List ℚ) (dist : ℚ → ℚ) (S : Ov)
    (acc : List (List ℚ)) (pr : ℚ × List CQ) (rest : List (ℚ × List CQ))
    (p : List ℚ) (hp : pvec S pr.2 = .ok p) :
    colLoop E dist S acc (pr :: rest) =
      colLoop E dist S (addMat acc (outer p (dmap E dist pr.1))) rest := by
  show (match pvec S pr.2 with
    | Except.error e => (Except.error e : Except String (List (List ℚ)))
    | Except.ok p => colLoop E dist S (addMat acc (outer p (dmap E dist pr.1))) rest) = _
  rw [hp]

theorem colLoop_sum (E : List ℚ) (dist : ℚ → ℚ) (S : Ov) (w : ℕ) :
    ∀ (ps : List (ℚ × List CQ)) (acc : List (List ℚ)),
      (∀ pr ∈ ps, normalizedRow S w pr.2 = true) →
      acc.length = w → (∀ r ∈ acc, r.length = E.length) →
      ∃ P, colLoop E dist S acc ps = .ok P ∧
        sumRows E.length P = vadd (sumRows E.length acc)
          (dosFormula E (ps.map Prod.fst) dist) := by
  intro ps
  induction ps with
  | nil =>
    intro acc _ hlen hrows
    refine ⟨acc, rfl, ?_⟩
    rw [show ([] : List (ℚ × List CQ)).map Prod.fst = [] from rfl, dosFormula_nil,
      map_zero_eq_replicate]
    exact (vadd_replicate_zero' (sumRows E.length acc) E.length
      (sumRows_length E.length acc hrows)).symm
  | cons pr rest ih =>
    intro acc hnorm hlen hrows
    obtain ⟨p, hp, hsum, hplen⟩ :=
      normalizedRow_spec S w pr.2 (hnorm pr (List.mem_cons_self pr rest))
    have hd : (dmap E dist pr.1).length = E.length := dmap_length E dist pr.1
    have hacc2len : (addMat acc (outer p (dmap E dist pr.1))).length = w := by
      rw [addMat_length, hlen, outer_length, hplen, min_self]
    have hacc2rows : ∀ r ∈ addMat acc (outer p (dmap E dist pr.1)), r.length = E.length := by
      refine addMat_row_length E.length acc _ hrows (fun r hr => ?_)
      rw [outer_row_length p (dmap E dist pr.1) r hr, hd]
    obtain ⟨P, hP, hPsum⟩ := ih (addMat acc (outer p (dmap E dist pr.1)))
      (fun pr2 h2 => hnorm pr2 (List.mem_cons_of_mem pr h2)) hacc2len hacc2rows
    refine ⟨P, by rw [colLoop_cons_ok E dist S acc pr rest p hp]; exact hP, ?_⟩
    rw [hPsum, sumRows_addMat E.length acc _ (by rw [hlen, outer_length, hplen]),
      sumRows_outer E.length p (dmap E dist pr.1) hd, hsum]
    simp only [one_mul]
    rw [List.map_id']
    show vadd (vadd (sumRows E.length acc) (dmap E dist pr.1))
      (dosFormula E (rest.map Prod.fst) dist) = _
    rw [list_vadd_assoc, ← dosFormula_cons]
    rfl

theorem colPDOS_ok (E : List ℚ) (dist : ℚ → ℚ) (S : Ov) (e0 : ℚ) (v0 : List CQ)
    (rest : List (ℚ × List CQ)) (p0 : List ℚ) (hp : pvec S v0 = .ok p0) :
    colPDOS E dist S e0 v0 rest =
      colLoop E dist S (outer p0 (dmap E dist e0)) rest := by
  unfold colPDOS
  rw [hp]

theorem pdosSpinResolve_none_col (S0 : Ov) (w : ℕ) (h : S0.shape1 ≠ w / 2) :
    pdosSpinResolve S0 w none = .ok (SpinKind.unpolarized, S0) := by
  unfold pdosSpinResolve
  rw [if_neg h]

theorem pdosBody_col (E : List ℚ) (e0 : ℚ) (erest : List ℚ) (v0 : List CQ)
    (vrest : List (List CQ)) (w : ℕ) (S1 : Ov) (dist : ℚ → ℚ)
    (hlen : erest.length ≤ vrest.length) :
    pdosBody E (e0 :: erest) (v0 :: vrest) w SpinKind.unpolarized S1 dist =
      match colPDOS E dist S1 e0 v0 (erest.zip vrest) with
      | Except.error e => Except.error e
      | Except.ok P => Except.ok (.col P) := by
  unfold pdosBody
  rw [if_neg (show ¬ (1 < SpinKind.kind SpinKind.unpolarized) by simp [SpinKind.kind])]
  show (if erest.length ≤ vrest.length then
      match colPDOS E dist S1 e0 v0 (erest.zip vrest) with
      | Except.error e => (Except.error e : Except String PDOSOut)
      | Except.ok P => Except.ok (.col P)
    else .error "IndexError: index is out of bounds") = _
  rw [if_pos hlen]

/-- Claim C1 (amended): for every energy grid, distribution, non-empty
eigenvalue list and matching eigenvector rows, **provided every eigenvector
is normalized against the resolved overlap** (its collinear weight vector
sums to 1), the collinear-path `PDOS` succeeds and summing it over the
orbital axis yields exactly the `DOS` of the same energies, eigenvalues and
distribution. -/
theorem c1_amended (E : List ℚ) (dist : ℚ → ℚ) (e0 : ℚ) (erest : List ℚ)
    (v0 : List CQ) (vrest : List (List CQ)) (S? : Option (List (List CQ)))
    (hdet : (resolveS S? (ncols (v0 :: vrest))).shape1 ≠ ncols (v0 :: vrest) / 2)
    (hlen : erest.length ≤ vrest.length)
    (hnorm : ∀ v ∈ v0 :: vrest,
      normalizedRow (resolveS S? (ncols (v0 :: vrest))) (ncols (v0 :: vrest)) v = true) :
    ∃ P, PDOS E (e0 :: erest) (v0 :: vrest) S? dist none = .ok (.col P) ∧
      DOS E (e0 :: erest) dist = .ok (sumRows E.length P) := by
  obtain ⟨p0, hp0, hsum0, hplen0⟩ :=
    normalizedRow_spec _ _ v0 (hnorm v0 (List.mem_cons_self v0 vrest))
  have hznorm : ∀ pr ∈ erest.zip vrest,
      normalizedRow (resolveS S? (ncols (v0 :: vrest))) (ncols (v0 :: vrest)) pr.2 = true := by
    intro pr hpr
    obtain ⟨e1, r1⟩ := pr
    exact hnorm r1 (List.mem_cons_of_mem v0 (List.of_mem_zip hpr).2)
  obtain ⟨P, hP, hPsum⟩ := colLoop_sum E dist (resolveS S? (ncols (v0 :: vrest)))
    (ncols (v0 :: vrest)) (erest.zip vrest) (outer p0 (dmap E dist e0)) hznorm
    (by rw [outer_length, hplen0])
    (fun r hr => by rw [outer_row_length _ _ r hr, dmap_length])
  have hcol : colPDOS E dist (resolveS S? (ncols (v0 :: vrest))) e0 v0
      (erest.zip vrest) = .ok P := by
    rw [colPDOS_ok E dist _ e0 v0 _ p0 hp0]
    exact hP
  have hsumP : sumRows E.length P = dosFormula E (e0 :: erest) dist := by
    rw [hPsum, sumRows_outer E.length p0 (dmap E dist e0) (dmap_length E dist e0), hsum0,
      List.map_fst_zip erest vrest hlen]
    simp only [one_mul]
    rw [List.map_id', ← dosFormula_cons]
  refine ⟨P, ?_, ?_⟩
  · unfold PDOS
    rw [pdosSpinResolve_none_col _ _ hdet]
    show pdosBody E (e0 :: erest) (v0 :: vrest) (ncols (v0 :: vrest))
      SpinKind.unpolarized (resolveS S? (ncols (v0 :: vrest))) dist = .ok (.col P)
    rw [pdosBody_col E e0 erest v0 vrest _ _ dist hlen, hcol]
  · rw [DOS_eq E (e0 :: erest) dist (by simp), hsumP]

/-- Witness for the amended C1 at a concrete input (one normalized state,
identity overlap). -/
theorem c1_amended_witness :
    ((resolveS none (ncols [[cq 1]])).shape1 ≠ ncols [[cq 1]] / 2 ∧
      ([] : List ℚ).length ≤ ([] : List (List CQ)).length ∧
      ∀ v ∈ [[cq 1]], normalizedRow (resolveS none (ncols [[cq 1]]))
        (ncols [[cq 1]]) v = true) ∧
    ∃ P, PDOS [0] [0] [[cq 1]] none (fun _ => 1) none = .ok (.col P) ∧
      DOS [0] [0] (fun _ => 1) = .ok (sumRows [(0 : ℚ)].length P) :=
  ⟨⟨by decide, by decide, by with_unfolding_all decide⟩,
    c1_amended [0] (fun _ => 1) 0 [] [cq 1] [] none (by decide) (by decide)
      (by with_unfolding_all decide)⟩

/-- Counterexample to claim C1 as stated: with the unnormalized eigenvector
`[2]` (identity-like explicit overlap `[[1]]`), the orbital-axis sum of the
collinear `PDOS` is `[4]` while `DOS` is `[1]`: the invariant fails without
a normalization hypothesis. -/
theorem c1_counterexample :
    PDOS [0] [0] [[cq 2]] (some [[cq 1]]) (fun _ => 1) none = .ok (.col [[4]]) ∧
    DOS [0] [0] (fun _ => 1) = .ok [1] ∧
    sumRows 1 [[(4 : ℚ)]] ≠ [(1 : ℚ)] := by
  refine ⟨by with_unfolding_all decide, by with_unfolding_all decide,
    by with_unfolding_all decide⟩

/-- Claim C3 (code bug): with `spin` not supplied and an explicit overlap of
half the eigenvector width (here a 2x2 identity for a 1x4 non-collinear
eigenvector), `PDOS` infers non-collinear but then *also* down-samples the
already orbital-sized overlap by `S[::2, ::2]` (to 1x1), so the subsequent
`S.dot(eig_v[i].reshape(-1, 2))` fails on a shape mismatch instead of
computing the non-collinear PDOS with the supplied block. -/
theorem c3_pdos_half_overlap_eval :
    PDOS [0] [0] [[cq 1, CQ.zero, CQ.zero, CQ.zero]]
      (some [[cq 1, CQ.zero], [CQ.zero, cq 1]]) (fun _ => 1) none =
      .error "ValueError: shapes not aligned" := by
  with_unfolding_all decide

/-- Claim C4 (code bug): a non-collinear `PDOS` call with the overlap
omitted (`S=None`) fails: the inline identity class is built with full
eigenvector width, so the non-collinear branch executes `S[::2, ::2]` on
the class object and raises a TypeError instead of returning the promised
`(4, eig_v.shape[1] // 2, len(E))` array. -/
theorem c4_pdos_identity_nc_eval :
    PDOS [0] [0] [[cq 1, CQ.zero]] none (fun _ => 1) (some SpinKind.noncolinear) =
      .error "TypeError: the identity overlap class object is not subscriptable" := by
  with_unfolding_all decide

/-! ### Velocity lemmas -/

theorem everyThird_getD {α : Type} (d : α) :
    ∀ (l : List α) (n : ℕ), (everyThird l).getD n d = l.getD (3 * n) d
  | [], n => by simp [everyThird, List.getD_nil]
  | [a], 0 => by rfl
  | [a], n + 1 => by
    rw [show 3 * (n + 1) = 3 * n + 2 + 1 by ring]
    show List.getD [] n d = List.getD [] (3 * n + 2) d
    simp [List.getD_nil]
  | [a, b], 0 => by rfl
  | [a, b], n + 1 => by
    rw [show 3 * (n + 1) = 3 * n + 2 + 1 by ring]
    show List.getD [] n d = List.getD [b] (3 * n + 2) d
    rw [show 3 * n + 2 = 3 * n + 1 + 1 by ring]
    show List.getD [] n d = List.getD [] (3 * n + 1) d
    simp [List.getD_nil]
  | a :: b :: c :: rest, 0 => by rfl
  | a :: b :: c :: rest, n + 1 => by
    rw [show 3 * (n + 1) = 3 * n + 2 + 1 by ring]
    show (everyThird rest).getD n d = List.getD (b :: c :: rest) (3 * n + 2) d
    rw [show 3 * n + 2 = 3 * n + 1 + 1 by ring]
    show (everyThird rest).getD n d = List.getD (c :: rest) (3 * n + 1) d
    rw [show 3 * n + 1 = 3 * n + 0 + 1 by ring]
    show (everyThird rest).getD n d = List.getD rest (3 * n + 0) d
    rw [Nat.add_zero]
    exact everyThird_getD d rest n

theorem getD_drop' {α : Type} (d : α) :
    ∀ (l : List α) (k n : ℕ), (l.drop k).getD n d = l.getD (k + n) d
  | l, 0, n => by rw [List.drop_zero, Nat.zero_add]
  | [], k + 1, n => by simp [List.getD_nil]
  | a :: l, k + 1, n => by
    show (l.drop k).getD n d = List.getD (a :: l) (k + 1 + n) d
    rw [show k + 1 + n = k + n + 1 by ring]
    show (l.drop k).getD n d = List.getD l (k + n) d
    exact getD_drop' d l k n

theorem getD_map_lt {α β : Type} (f : α → β) (d : α) (db : β) :
    ∀ (l : List α) (j : ℕ), j < l.length → (l.map f).getD j db = f (l.getD j d)
  | [], j, h => by simp at h
  | a :: l, 0, _ => rfl
  | a :: l, j + 1, h => by
    show (l.map f).getD j db = f (l.getD j d)
    exact getD_map_lt f d db l j (by simpa using h)

theorem everyThird_length {α : Type} :
    ∀ l : List α, (everyThird l).length = (l.length + 2) / 3
  | [] => by simp [everyThird]
  | [_] => by simp [everyThird]
  | [_, _] => by simp [everyThird]
  | _ :: _ :: _ :: rest => by
    show (everyThird rest).length + 1 = (rest.length + 1 + 1 + 1 + 2) / 3
    rw [everyThird_length rest]
    omega

theorem dotRe_eq_range : ∀ (as bs : List CQ), as.length = bs.length →
    dotRe as bs = ((List.range as.length).map (fun i =>
      (CQ.mul (CQ.conj (as.getD i CQ.zero)) (bs.getD i CQ.zero)).re)).sum
  | [], [], _ => rfl
  | [], _ :: _, h => by simp at h
  | _ :: _, [], h => by simp at h
  | a :: as, b :: bs, h => by
    have ih := dotRe_eq_range as bs (by simpa using h)
    show (CQ.mul (CQ.conj a) b).re + dotRe as bs = _
    rw [ih, show ((a :: as).length) = as.length + 1 from rfl, List.range_succ_eq_map,
      List.map_cons, List.sum_cons, List.map_map]
    congr 1

theorem velocity_entry (dHk : List (List CQ)) (row : List CQ) (w : ℕ) (a : ℕ)
    (ha : a < 3) (hrow : row.length = w) (hH : dHk.length = w * 3) :
    dotRe row (everyThird ((matVecU dHk row).drop a)) = braket dHk a row := by
  have hsv : (matVecU dHk row).length = w * 3 := by simp [matVecU, hH]
  have hlen : (everyThird ((matVecU dHk row).drop a)).length = w := by
    rw [everyThird_length, List.length_drop, hsv]
    omega
  rw [dotRe_eq_range row _ (by rw [hlen, hrow])]
  unfold braket
  refine congrArg List.sum (List.map_congr_left (fun i hi => ?_))
  have hiw : i < w := hrow ▸ List.mem_range.mp hi
  have hin : a + 3 * i < dHk.length := by rw [hH]; omega
  rw [everyThird_getD, getD_drop',
    show (matVecU dHk row).getD (a + 3 * i) CQ.zero = dotu (dHk.getD (a + 3 * i) []) row from by
      have h3 := getD_map_lt (fun r => dotu r row) [] CQ.zero dHk (a + 3 * i) hin
      simpa [matVecU] using h3,
    show a + 3 * i = 3 * i + a from by ring]

/-- Claim C2 (amended): for every state matrix and every well-shaped stacked
three-direction derivative, `velocity` with `dSk` omitted returns, per state
`i` and Cartesian axis `a`, `Re` of `⟨ψ_i| dH/dk_a |ψ_i⟩` (with **no**
factor of 2), scaled by the unit constant `1 / 6.582119514e-16 * 1e-12`. -/
theorem c2_amended (state dHk : List (List CQ))
    (hH : dHk.length = ncols state * 3)
    (hcols : ncols dHk = ncols state)
    (hs : ∀ r ∈ state, r.length = ncols state) :
    velocity_ortho state dHk = .ok (.three (state.map (fun row =>
      (velocity_const * braket dHk 0 row,
       velocity_const * braket dHk 1 row,
       velocity_const * braket dHk 2 row)))) := by
  unfold velocity_ortho
  rw [if_pos hH, if_pos hcols]
  refine congrArg (fun l => Except.ok (VOut.three l)) ?_
  refine List.map_congr_left (fun row hrow => ?_)
  rw [show everyThird (matVecU dHk row) = everyThird ((matVecU dHk row).drop 0) by
      rw [List.drop_zero],
    velocity_entry dHk row (ncols state) 0 (by omega) (hs row hrow) hH,
    velocity_entry dHk row (ncols state) 1 (by omega) (hs row hrow) hH,
    velocity_entry dHk row (ncols state) 2 (by omega) (hs row hrow) hH]

/-- Witness for the amended C2 at a concrete 1x1 input. -/
theorem c2_amended_witness :
    (([[cq 1], [cq 0], [cq 0]] : List (List CQ)).length = ncols [[cq 1]] * 3 ∧
      ncols [[cq 1], [cq 0], [cq 0]] = ncols [[cq 1]] ∧
      ∀ r ∈ [[cq 1]], r.length = ncols [[cq 1]]) ∧
    velocity_ortho [[cq 1]] [[cq 1], [cq 0], [cq 0]] =
      .ok (.three ([[cq 1]].map (fun row =>
        (velocity_const * braket [[cq 1], [cq 0], [cq 0]] 0 row,
         velocity_const * braket [[cq 1], [cq 0], [cq 0]] 1 row,
         velocity_const * braket [[cq 1], [cq 0], [cq 0]] 2 row)))) :=
  ⟨⟨by decide, by decide, by decide⟩,
    c2_amended [[cq 1]] [[cq 1], [cq 0], [cq 0]] (by decide) (by decide) (by decide)⟩

/-- Counterexample to claim C2 as stated: the normalized 1x1 state with
`dHk = [1, 0, 0]` yields the velocity `const * 1`, not the claimed
`2 * Re` of the braket times the constant, since `const ≠ 2 * const`. -/
theorem c2_counterexample :
    velocity_ortho [[cq 1]] [[cq 1], [cq 0], [cq 0]] =
      .ok (.three [(velocity_const, 0, 0)]) ∧
    velocity_const ≠ 2 * velocity_const := by
  constructor
  · unfold velocity_ortho
    norm_num [ncols, matVecU, dotu, csum, everyThird, dotRe, CQ.mul, CQ.conj, cq,
      CQ.zero, CQ.add]
  · simp only [velocity_const]
    norm_num

/-- Claim C8: whenever the row count of `dHk` is neither three times the
state width nor exactly the state width, the orthogonal-basis velocity
fails with the malformed-derivative-shape SislError and returns no result. -/
theorem c8_velocity_shape_error (state dHk : List (List CQ))
    (h3 : dHk.length ≠ ncols state * 3) (h1 : dHk.length ≠ ncols state) :
    velocity_ortho state dHk =
      .error "SislError: velocity requires the dHk matrix to contain 1 or 3 components per orbital" := by
  unfold velocity_ortho
  rw [if_neg h3, if_neg h1]

/-- Witness for C8 at a concrete input (2 rows for a width-1 state). -/
theorem c8_velocity_shape_error_witness :
    (([[cq 1], [cq 1]] : List (List CQ)).length ≠ ncols [[cq 1]] * 3 ∧
      ([[cq 1], [cq 1]] : List (List CQ)).length ≠ ncols [[cq 1]]) ∧
    velocity_ortho [[cq 1]] [[cq 1], [cq 1]] =
      .error "SislError: velocity requires the dHk matrix to contain 1 or 3 components per orbital" :=
  ⟨⟨by decide, by decide⟩, c8_velocity_shape_error [[cq 1]] [[cq 1], [cq 1]] (by decide) (by decide)⟩

/-- Claim C6: on a single-state, single-orbital orthogonal system with the
stacked 3x1 derivative `[a, b, c]`, `velocity` returns exactly
`[a, b, c] * (psi' * psi) * const` (no factor of 2), where `psi' * psi` is
the conjugated square of the single coefficient. -/
theorem c6_velocity_1x1 (a b c : ℚ) (psi : CQ) :
    velocity_ortho [[psi]] [[cq a], [cq b], [cq c]] =
      .ok (.three [(a * (CQ.mul (CQ.conj psi) psi).re * velocity_const,
                    b * (CQ.mul (CQ.conj psi) psi).re * velocity_const,
                    c * (CQ.mul (CQ.conj psi) psi).re * velocity_const)]) := by
  unfold velocity_ortho
  norm_num [ncols, matVecU, dotu, csum, everyThird, dotRe, CQ.mul, CQ.conj, cq,
    CQ.zero, CQ.add]
  refine ⟨?_, ?_, ?_⟩ <;> ring

/-! ### Spin-moment lemmas -/

theorem evens_cons2 {α : Type} (a b : α) (l : List α) :
    evens (a :: b :: l) = a :: evens l := rfl

theorem odds_cons2 {α : Type} (a b : α) (l : List α) :
    odds (a :: b :: l) = b :: odds l := by
  cases l with
  | nil => rfl
  | cons c l2 => rfl

theorem toPairs_even {α : Type} : ∀ l : List α, l.length % 2 = 0 →
    ∃ P, toPairs l = .ok P ∧ ravel P = l ∧ P.map Prod.fst = evens l ∧
      P.map Prod.snd = odds l ∧ P.length * 2 = l.length
  | [], _ => ⟨[], rfl, rfl, rfl, rfl, rfl⟩
  | [a], h => by simp at h
  | a :: b :: l, h => by
    obtain ⟨P, hP, hrav, hfst, hsnd, hlen⟩ := toPairs_even l
      (by simp only [List.length_cons] at h; omega)
    refine ⟨(a, b) :: P, ?_, ?_, ?_, ?_, ?_⟩
    · show (toPairs l).map (fun Q => (a, b) :: Q) = _
      rw [hP]
      rfl
    · show a :: b :: ravel P = a :: b :: l
      rw [hrav]
    · rw [evens_cons2]
      show a :: P.map Prod.fst = a :: evens l
      rw [hfst]
    · rw [odds_cons2]
      show b :: P.map Prod.snd = b :: odds l
      rw [hsnd]
    · show (P.length + 1) * 2 = l.length + 1 + 1
      omega

theorem toPairs_ravel {α : Type} : ∀ P : List (α × α), toPairs (ravel P) = .ok P
  | [] => rfl
  | p :: P => by
    show (toPairs (ravel P)).map (fun Q => (p.1, p.2) :: Q) = .ok (p :: P)
    rw [toPairs_ravel P]
    rfl

theorem ravel_zipWith {α β : Type} (f : α → α → β) :
    ∀ P Q : List (α × α),
      List.zipWith f (ravel P) (ravel Q) =
        ravel (List.zipWith (fun p q => (f p.1 q.1, f p.2 q.2)) P Q)
  | [], _ => rfl
  | _ :: _, [] => rfl
  | p :: P, q :: Q => by
    show f p.1 q.1 :: f p.2 q.2 :: List.zipWith f (ravel P) (ravel Q) = _
    rw [ravel_zipWith f P Q]
    rfl

theorem zipWith_congr_mem {α β γ : Type} (f g : α → β → γ) :
    ∀ (l : List α) (m : List β), (∀ a ∈ l, ∀ b ∈ m, f a b = g a b) →
      List.zipWith f l m = List.zipWith g l m
  | [], _, _ => by simp
  | _ :: _, [], _ => by simp
  | a :: l, b :: m, h => by
    show f a b :: List.zipWith f l m = g a b :: List.zipWith g l m
    rw [h a (List.mem_cons_self a l) b (List.mem_cons_self b m),
      zipWith_congr_mem f g l m (fun x hx y hy =>
        h x (List.mem_cons_of_mem a hx) y (List.mem_cons_of_mem b hy))]

theorem CQ_mul_zero_right (x : CQ) : CQ.mul x CQ.zero = CQ.zero := by
  simp [CQ.mul, CQ.zero]

theorem CQ_mul_zero_left (x : CQ) : CQ.mul CQ.zero x = CQ.zero := by
  simp [CQ.mul, CQ.zero]

theorem CQ_conj_zero : CQ.conj CQ.zero = CQ.zero := by
  simp [CQ.conj, CQ.zero]

theorem CQ_add_zero (x : CQ) : CQ.add x CQ.zero = x := by
  cases x
  simp [CQ.add, CQ.zero]

theorem dotu_zero_right : ∀ a b : List CQ, (∀ c ∈ b, c = CQ.zero) → dotu a b = CQ.zero
  | [], _, _ => rfl
  | _ :: _, [], _ => rfl
  | x :: a, y :: b, h => by
    show CQ.add (CQ.mul x y) (dotu a b) = CQ.zero
    rw [h y (List.mem_cons_self y b), CQ_mul_zero_right,
      dotu_zero_right a b (fun c hc => h c (List.mem_cons_of_mem y hc))]
    exact CQ_add_zero CQ.zero

theorem conj_zip_zero_left : ∀ a b : List CQ, (∀ c ∈ a, c = CQ.zero) →
    csum (List.zipWith (fun c u => CQ.mul (CQ.conj c) u) a b) = CQ.zero
  | [], _, _ => rfl
  | _ :: _, [], _ => rfl
  | x :: a, y :: b, h => by
    show CQ.add (CQ.mul (CQ.conj x) y)
      (csum (List.zipWith (fun c u => CQ.mul (CQ.conj c) u) a b)) = CQ.zero
    rw [h x (List.mem_cons_self x a), CQ_conj_zero, CQ_mul_zero_left,
      conj_zip_zero_left a b (fun c hc => h c (List.mem_cons_of_mem x hc))]
    exact CQ_add_zero CQ.zero

theorem dotRe_zero_left : ∀ a b : List CQ, (∀ c ∈ a, c = CQ.zero) → dotRe a b = 0
  | [], _, _ => rfl
  | _ :: _, [], _ => rfl
  | x :: a, y :: b, h => by
    show (CQ.mul (CQ.conj x) y).re + dotRe a b = 0
    rw [h x (List.mem_cons_self x a), CQ_conj_zero, CQ_mul_zero_left,
      dotRe_zero_left a b (fun c hc => h c (List.mem_cons_of_mem x hc))]
    show CQ.zero.re + 0 = 0
    simp [CQ.zero]

theorem spinRowCalc_eval (S : Ov) (row : List CQ) (P Sst : List (CQ × CQ))
    (hP : toPairs row = .ok P) (hdot : Ov.dotPairs S P = .ok Sst)
    (hrav : ravel P = row) (hif : Sst.length * 2 = row.length)
    (hSzero : ∀ q ∈ Sst, q.2 = CQ.zero)
    (hozero : ∀ c ∈ odds row, c = CQ.zero) :
    spinRowCalc S row = .ok (0, 0, dotRe (P.map Prod.fst) (Sst.map Prod.fst)) := by
  have hD : List.zipWith (fun c u => (CQ.mul (CQ.conj c) u).re) row (ravel Sst) =
      ravel (List.zipWith (fun p q =>
        ((CQ.mul (CQ.conj p.1) q.1).re, (CQ.mul (CQ.conj p.2) q.2).re)) P Sst) := by
    rw [← hrav, ravel_zipWith]
  have hDP : toPairs (List.zipWith (fun c u => (CQ.mul (CQ.conj c) u).re) row (ravel Sst)) =
      .ok (List.zipWith (fun p q =>
        ((CQ.mul (CQ.conj p.1) q.1).re, (CQ.mul (CQ.conj p.2) q.2).re)) P Sst) := by
    rw [hD, toPairs_ravel]
  have hz : ((List.zipWith (fun p q =>
        ((CQ.mul (CQ.conj p.1) q.1).re, (CQ.mul (CQ.conj p.2) q.2).re)) P Sst).map
        (fun p => p.1 - p.2)).sum =
      dotRe (P.map Prod.fst) (Sst.map Prod.fst) := by
    rw [List.map_zipWith, dotRe, List.zipWith_map]
    refine congrArg List.sum (zipWith_congr_mem _ _ P Sst (fun p hp q hq => ?_))
    rw [hSzero q hq, CQ_mul_zero_right]
    show (CQ.mul (CQ.conj p.1) q.1).re - CQ.zero.re = (CQ.mul (CQ.conj p.1) q.1).re
    simp [CQ.zero]
  have hxy : List.zipWith (fun c u => CQ.mul (CQ.conj c) u) (odds row)
      (Sst.map Prod.fst) = List.zipWith (fun c u => CQ.mul (CQ.conj c) u) (odds row)
      (Sst.map Prod.fst) := rfl
  have hxy0 : csum (List.zipWith (fun c u => CQ.mul (CQ.conj c) u) (odds row)
      (Sst.map Prod.fst)) = CQ.zero :=
    conj_zip_zero_left _ _ hozero
  unfold spinRowCalc
  simp only [hP, hdot, hif, if_true, hDP, hxy0, hz]
  show Except.ok (2 * CQ.zero.re, 2 * CQ.zero.im, _) = _
  simp [CQ.zero]

theorem spinRows_ok (S : Ov) (g : List CQ → ℚ × ℚ × ℚ) :
    ∀ rows : List (List CQ), (∀ row ∈ rows, spinRowCalc S row = .ok (g row)) →
      spinRows S rows = .ok (rows.map g)
  | [], _ => rfl
  | row :: rest, h => by
    unfold spinRows
    rw [h row (List.mem_cons_self row rest),
      spinRows_ok S g rest (fun r hr => h r (List.mem_cons_of_mem row hr))]
    rfl

theorem spinRowCalc_zero_down (S : Ov) (no : ℕ) (row : List CQ)
    (hlen : row.length = 2 * no) (hSq : OvSquare S no)
    (hzero : ∀ c ∈ odds row, c = CQ.zero) :
    spinRowCalc S row = .ok (0, 0, snormFull S row) := by
  obtain ⟨P, hP, hrav, hfst, hsnd, hPlen⟩ := toPairs_even row (by omega)
  have hPzero : ∀ p ∈ P, p.2 = CQ.zero := by
    intro p hp
    exact hzero p.2 (by rw [← hsnd]; exact List.mem_map_of_mem Prod.snd hp)
  cases S with
  | ident n =>
    have heval := spinRowCalc_eval (.ident n) row P P hP rfl hrav (by omega) hPzero hzero
    rw [heval]
    unfold snormFull OvApplyU
    rw [dotRe_zero_left (odds row) (odds row) hzero, add_zero, hfst]
  | mat m =>
    obtain ⟨hmlen, hmcols⟩ := hSq
    have hPn : P.length = no := by omega
    have hdot : Ov.dotPairs (.mat m) P =
        .ok (m.map (fun r => (dotu r (P.map Prod.fst), dotu r (P.map Prod.snd)))) := by
      show (if ncols m = P.length then
          Except.ok (m.map (fun r => (dotu r (P.map Prod.fst), dotu r (P.map Prod.snd))))
        else Except.error "ValueError: shapes not aligned") = _
      rw [if_pos (by rw [hmcols, hPn])]
    have hSzero : ∀ q ∈ m.map (fun r => (dotu r (P.map Prod.fst), dotu r (P.map Prod.snd))),
        q.2 = CQ.zero := by
      intro q hq
      obtain ⟨r, _, rfl⟩ := List.mem_map.mp hq
      show dotu r (P.map Prod.snd) = CQ.zero
      refine dotu_zero_right r (P.map Prod.snd) (fun c hc => ?_)
      obtain ⟨p, hp, rfl⟩ := List.mem_map.mp hc
      exact hPzero p hp
    have heval := spinRowCalc_eval (.mat m) row P
      (m.map (fun r => (dotu r (P.map Prod.fst), dotu r (P.map Prod.snd))))
      hP hdot hrav (by rw [List.length_map, hmlen]; omega) hSzero hzero
    rw [heval]
    unfold snormFull OvApplyU
    rw [dotRe_zero_left (odds row) (matVecU m (odds row)) hzero, add_zero, ← hfst]
    show Except.ok (0, 0, dotRe (P.map Prod.fst)
      ((m.map (fun r => (dotu r (P.map Prod.fst), dotu r (P.map Prod.snd)))).map Prod.fst)) =
      Except.ok ((0 : ℚ), (0 : ℚ), dotRe (P.map Prod.fst) (matVecU m (P.map Prod.fst)))
    rw [List.map_map]
    rfl

/-- Claim C7: for every spinor state matrix whose spin-down component (the
odd-indexed coefficient of every orbital pair) vanishes, `spin_moment`
returns, per state, x- and y-components equal to zero and z-component equal
to the full overlap-weighted norm of the state. -/
theorem c7_spin_moment (state : List (List CQ)) (S? : Option (List (List CQ)))
    (hw : 0 < ncols state) (heven : ncols state % 2 = 0)
    (hrect : ∀ r ∈ state, r.length = ncols state)
    (hS : spinSOK S? (ncols state / 2) = true)
    (hdown : ∀ r ∈ state, ∀ x ∈ odds r, x = CQ.zero) :
    spin_moment state S? = .ok (state.map (fun row =>
      (0, 0, snormFull (resolveSpinS S? (ncols state)) row))) := by
  have hSq : OvSquare (resolveSpinS S? (ncols state)) (ncols state / 2) := by
    cases S? with
    | none => trivial
    | some m =>
      unfold spinSOK at hS
      simp only [Bool.and_eq_true, decide_eq_true_eq] at hS
      obtain ⟨hmlen, hmrows⟩ := hS
      refine ⟨hmlen, ?_⟩
      cases m with
      | nil => simp at hmlen; omega
      | cons r ms => exact hmrows r (List.mem_cons_self r ms)
  have hshape : (resolveSpinS S? (ncols state)).shape1 ≠ ncols state := by
    cases S? with
    | none => show ncols state / 2 ≠ ncols state; omega
    | some m =>
      show ncols m ≠ ncols state
      obtain ⟨_, hmcols⟩ := hSq
      rw [hmcols]
      omega
  unfold spin_moment
  rw [if_neg hshape]
  show spinRows (resolveSpinS S? (ncols state)) state = _
  refine spinRows_ok _ _ state (fun row hrow => ?_)
  exact spinRowCalc_zero_down _ (ncols state / 2) row
    (by rw [hrect row hrow]; omega) hSq (hdown row hrow)

/-- Witness for C7 at a concrete input (one state, one orbital pair,
identity overlap). -/
theorem c7_spin_moment_witness :
    (0 < ncols [[cq 1, CQ.zero]] ∧ ncols [[cq 1, CQ.zero]] % 2 = 0 ∧
      (∀ r ∈ [[cq 1, CQ.zero]], r.length = ncols [[cq 1, CQ.zero]]) ∧
      spinSOK none (ncols [[cq 1, CQ.zero]] / 2) = true ∧
      ∀ r ∈ [[cq 1, CQ.zero]], ∀ x ∈ odds r, x = CQ.zero) ∧
    spin_moment [[cq 1, CQ.zero]] none = .ok ([[cq 1, CQ.zero]].map (fun row =>
      (0, 0, snormFull (resolveSpinS none (ncols [[cq 1, CQ.zero]])) row))) :=
  ⟨⟨by decide, by decide, by decide, by decide, by decide⟩,
    c7_spin_moment [[cq 1, CQ.zero]] none (by decide) (by decide) (by decide)
      (by decide) (by decide)⟩

/-- Claim C9 (amended): whenever the geometry/coefficient processing prefix
of `wavefunction` succeeds and the squared norm of `k` exceeds `1e-12`
(i.e. its norm exceeds the source's `0.000001` threshold), the call fails
with the unsupported-k-point error; the failure happens before the grid
accumulation stage, which only a successful result reaches. -/
theorem c9_amended (vin : VCoeff) (vC gC : Bool) (g? gg? : Option ℕ)
    (k : ℚ × ℚ × ℚ) (spinor : ℕ) (spin? : Option SpinKind) (v2 : List CQ)
    (hpre : wavefunction_pre vin g? gg? spinor spin? = .ok v2)
    (hk : 1 / 1000000000000 < k.1 * k.1 + k.2.1 * k.2.1 + k.2.2 * k.2.2) :
    wavefunction vin vC gC g? gg? k spinor spin? =
      .error "NotImplementedError: wavefunction for k away from Gamma does not produce correct wavefunctions" := by
  unfold wavefunction
  rw [hpre]
  show (if 1 / 1000000000000 < k.1 * k.1 + k.2.1 * k.2.1 + k.2.2 * k.2.2 then
      Except.error "NotImplementedError: wavefunction for k away from Gamma does not produce correct wavefunctions"
    else if vC && !gC then
      (Except.error "SislError: wavefunction input coefficients are complex, while grid only contains real" : Except String (List CQ))
    else Except.ok v2) = _
  rw [if_pos hk]

/-- Witness for the amended C9 at a concrete input (`k = (1, 0, 0)`). -/
theorem c9_amended_witness :
    (wavefunction_pre (.one [cq 1]) (some 1) none 0 none = .ok [cq 1] ∧
      (1 : ℚ) / 1000000000000 <
        ((1 : ℚ), (0 : ℚ), (0 : ℚ)).1 * ((1 : ℚ), (0 : ℚ), (0 : ℚ)).1 +
        ((1 : ℚ), (0 : ℚ), (0 : ℚ)).2.1 * ((1 : ℚ), (0 : ℚ), (0 : ℚ)).2.1 +
        ((1 : ℚ), (0 : ℚ), (0 : ℚ)).2.2 * ((1 : ℚ), (0 : ℚ), (0 : ℚ)).2.2) ∧
    wavefunction (.one [cq 1]) false false (some 1) none (1, 0, 0) 0 none =
      .error "NotImplementedError: wavefunction for k away from Gamma does not produce correct wavefunctions" :=
  ⟨⟨by with_unfolding_all decide, by norm_num⟩,
    c9_amended (.one [cq 1]) false false (some 1) none (1, 0, 0) 0 none [cq 1]
      (by with_unfolding_all decide) (by norm_num)⟩

/-- Counterexample to claim C9 as stated: the nonzero reciprocal point
`k = (1e-7, 0, 0)` passes the `norm > 1e-6` gate, so the call succeeds
instead of failing with the unsupported-k-point error. -/
theorem c9_counterexample :
    wavefunction (.one [cq 1]) false false (some 1) none
        (1 / 10000000, 0, 0) 0 none = .ok [cq 1] ∧
    ((1 : ℚ) / 10000000, (0 : ℚ), (0 : ℚ)) ≠ ((0 : ℚ), (0 : ℚ), (0 : ℚ)) := by
  refine ⟨by with_unfolding_all decide, by with_unfolding_all decide⟩

/-- Claim C10: on a 2-D coefficient array, `wavefunction` first sums the
array over its state (row) axis and then behaves identically to the call on
that summed 1-D vector: every later spin/shape check and the deposited
superposition agree. -/
theorem c10_wavefunction_sum0 (m : List (List CQ)) (vC gC : Bool)
    (g? gg? : Option ℕ) (k : ℚ × ℚ × ℚ) (spinor : ℕ) (spin? : Option SpinKind) :
    wavefunction (.two m) vC gC g? gg? k spinor spin? =
      wavefunction (.one (sum0 m)) vC gC g? gg? k spinor spin? := rfl
